import Mathlib

/-!
Shallow embedding of the element-range parsing, merging and formatting code of
`mapclientplugins/meshgeneratorstep/model/meshgeneratormodel.py`
(`_parseDeleteElementsRangesText`, `setDeleteElementsRangesText`,
`deleteElementsSelection`), together with proofs of the specified properties.

Strings are modelled as `List Char`; Python's `str.split` is `List.splitOn`;
Python's `int(s)` (base 10) is modelled at the ASCII level as `pyInt`
(optional surrounding whitespace, an optional plus sign, digits with single
underscores between them).  A minus sign never reaches `int` in this code:
the dash is the range delimiter that the token was already split on.
The local loop variable `i` of the stripping loop leaks across loop
iterations inside one call ("leak" below); reading it before any assignment
raises `NameError`, which the enclosing `try` swallows.
-/

namespace MeshGen

/-- Numeric value of an ASCII digit character. -/
def digitVal (c : Char) : Nat := c.toNat - 48

/-- ASCII digit character for a value below ten. -/
def digitChar (d : Nat) : Char :=
  if d = 0 then '0' else if d = 1 then '1' else if d = 2 then '2'
  else if d = 3 then '3' else if d = 4 then '4' else if d = 5 then '5'
  else if d = 6 then '6' else if d = 7 then '7' else if d = 8 then '8' else '9'

/-- Python `str.strip` whitespace characters (ASCII). -/
def isPySpace (c : Char) : Bool :=
  c == ' ' || c == '\t' || c == '\n' || c == '\r' ||
  c == Char.ofNat 11 || c == Char.ofNat 12

/-- Digit accumulation of Python `int`: digits, with single underscores
allowed between two digits. -/
def pyIntAux : List Char → Nat → Option Nat
  | [], acc => some acc
  | c :: rest, acc =>
    if c.isDigit then pyIntAux rest (acc * 10 + digitVal c)
    else if c = '_' then
      match rest with
      | [] => none
      | c2 :: rest2 =>
        if c2.isDigit then pyIntAux rest2 (acc * 10 + digitVal c2) else none
    else none

/-- Digit part of Python `int`: at least one digit, starting with a digit. -/
def pyIntCore : List Char → Option Nat
  | [] => none
  | c :: rest => if c.isDigit then pyIntAux rest (digitVal c) else none

/-- Remove surrounding Python whitespace. -/
def trimSpaces (s : List Char) : List Char :=
  ((s.dropWhile isPySpace).reverse.dropWhile isPySpace).reverse

/-- Remove one leading plus sign, if present. -/
def stripSign : List Char → List Char
  | [] => []
  | c :: rest => if c = '+' then rest else c :: rest

/-- Model of Python `int(s)` for the strings that can occur here (no minus
sign: the dash was the split delimiter).  Returns `none` where Python raises
`ValueError`. -/
def pyInt (s : List Char) : Option Nat :=
  pyIntCore (stripSign (trimSpaces s))

/-- Stripping loop of `_parseDeleteElementsRangesText` for one nonempty part:
scan from the end for the first digit (loop variable `i`), and when `i > 0`
drop the last `i` characters.  Returns the stripped part and the final value
of `i`. -/
def stripPart (s : List Char) : List Char × Nat :=
  let size := s.length
  let t := (s.reverse.takeWhile (fun c => ! c.isDigit)).length
  let i := if t < size then t else size - 1
  (if 0 < i then s.take (size - i) else s, i)

/-- Pure view of the stripping step on one part (an empty part stays empty:
any slice of the empty string is empty). -/
def stripPure (s : List Char) : List Char :=
  if s = [] then [] else (stripPart s).1

/-- Stripping loop over all dash-separated parts of one token, threading the
leaked loop variable `i` (`leak`).  On an empty part the loop body does not
run, so `i` keeps its previous value; if `i` was never assigned, reading it
raises `NameError` (`none` result), which the caller's `try` catches. -/
def stripParts (leak : Option Nat) : List (List Char) → Option (List (List Char)) × Option Nat
  | [] => (some [], leak)
  | s :: rest =>
    if s = [] then
      match leak with
      | none => (none, none)
      | some k =>
        let r := stripParts (some k) rest
        (r.1.map (fun out => [] :: out), r.2)
    else
      let r := stripParts (some (stripPart s).2) rest
      (r.1.map (fun out => (stripPart s).1 :: out), r.2)

/-- Stop value of a token: the start value itself when there is no second
part, otherwise `int` of the second part (parts after the second are
ignored). -/
def rangeStop (a : Nat) : List (List Char) → Option Nat
  | [] => some a
  | p1 :: _ => pyInt p1

/-- Integer conversion and swap step of one token, applied to its stripped
parts: `int` of the first part, the stop value, and the pair ordered so that
start ≤ stop. -/
def rangeOfParts : List (List Char) → Option (Nat × Nat)
  | [] => none
  | p0 :: restp =>
    match pyInt p0 with
    | none => none
    | some a =>
      match rangeStop a restp with
      | none => none
      | some b => some (if a ≤ b then (a, b) else (b, a))

/-- Body of the `try` block for one comma-separated token, threading the
leaked loop variable: split on the dash, strip each part, convert.  A `none`
first component is a swallowed exception: the token contributes nothing. -/
def processToken (leak : Option Nat) (tok : List Char) : Option (Nat × Nat) × Option Nat :=
  let r := stripParts leak (tok.splitOn '-')
  (r.1.bind rangeOfParts, r.2)

/-- Result of one token, ignoring the leaked state (proved equal to
`processToken`'s result for every leak). -/
def pureToken (tok : List Char) : Option (Nat × Nat) :=
  rangeOfParts ((tok.splitOn '-').map stripPure)

/-- Token loop of `_parseDeleteElementsRangesText`: build the raw range list,
skipping tokens whose processing raised. -/
def collectRanges (leak : Option Nat) : List (List Char) → List (Nat × Nat)
  | [] => []
  | t :: ts =>
    (processToken leak t).1.toList ++ collectRanges (processToken leak t).2 ts

/-- Python list comparison on `[start, stop]` pairs: lexicographic. -/
def rangeLe (a b : Nat × Nat) : Prop :=
  a.1 < b.1 ∨ (a.1 = b.1 ∧ a.2 ≤ b.2)

instance : DecidableRel rangeLe := fun a b => by
  unfold rangeLe; infer_instance

instance : IsTotal (Nat × Nat) rangeLe :=
  ⟨fun a b => by unfold rangeLe; omega⟩

instance : IsTrans (Nat × Nat) rangeLe :=
  ⟨fun a b c hab hbc => by unfold rangeLe at *; omega⟩

/-- Python `list.sort()` on the raw range list: a stable sort in the
lexicographic order (for which any two equivalent pairs are equal, so the
sorted output is the unique sorted permutation). -/
def sortRanges (l : List (Nat × Nat)) : List (Nat × Nat) :=
  l.insertionSort rangeLe

/-- Inner state of the merge loop of `_parseDeleteElementsRangesText`: `cur`
is `elementRanges[i - 1]`, the range the scan currently sits on.  A following
range starting at most one past `cur`'s stop is folded into `cur` (the stop
becomes the larger of the two and the element is popped), otherwise `cur` is
final and the scan advances. -/
def mergeLoop (cur : Nat × Nat) : List (Nat × Nat) → List (Nat × Nat)
  | [] => [cur]
  | r :: rest =>
    if r.1 ≤ cur.2 + 1 then
      mergeLoop (cur.1, if cur.2 < r.2 then r.2 else cur.2) rest
    else
      cur :: mergeLoop r rest

/-- Merge pass of `_parseDeleteElementsRangesText` over the sorted raw range
list. -/
def mergeRanges : List (Nat × Nat) → List (Nat × Nat)
  | [] => []
  | r :: rest => mergeLoop r rest

/-- Range-list computation of `_parseDeleteElementsRangesText`: split the
input on commas, process each token (the leaked loop variable starts unset in
each call), sort, merge. -/
def parseRanges (text : List Char) : List (Nat × Nat) :=
  mergeRanges (sortRanges (collectRanges none (text.splitOn ',')))

/-- Decimal digits of `n`, least significant first, with enough fuel. -/
def natDigitsRevGo : Nat → Nat → List Char
  | 0, n => [digitChar n]
  | fuel + 1, n =>
    if n < 10 then [digitChar n]
    else digitChar (n % 10) :: natDigitsRevGo fuel (n / 10)

/-- Decimal digits of `n`, least significant first. -/
def natDigitsRev (n : Nat) : List Char := natDigitsRevGo n n

/-- Python `str(n)` for a natural number. -/
def natDigits (n : Nat) : List Char := (natDigitsRev n).reverse

/-- Text of one canonical range: the start, and when the stop differs, a dash
and the stop. -/
def formatRange (r : Nat × Nat) : List Char :=
  natDigits r.1 ++ (if r.2 ≠ r.1 then '-' :: natDigits r.2 else [])

/-- Formatting loop of `_parseDeleteElementsRangesText`: ranges joined by
commas (the `first` flag suppresses the leading comma). -/
def formatRanges : List (Nat × Nat) → List Char
  | [] => []
  | r :: rs => formatRange r ++ (rs.map (fun x => ',' :: formatRange x)).flatten

/-- Persisted model state touched by `_parseDeleteElementsRangesText`:
`self._deleteElementRanges` and `self._settings['deleteElementRanges']`. -/
structure ModelState where
  deleteElementRanges : List (Nat × Nat)
  settingsDeleteElementRanges : List Char
deriving DecidableEq, Repr

/-- Full `_parseDeleteElementsRangesText`: compute the canonical range list
and its text, compare with the previously stored range list, store both, and
return the changed flag. -/
def parseDeleteElementsRangesText (s : ModelState) (textIn : List Char) : Bool × ModelState :=
  let elementRanges := parseRanges textIn
  let elementRangesText := formatRanges elementRanges
  (decide (s.deleteElementRanges ≠ elementRanges),
   { deleteElementRanges := elementRanges,
     settingsDeleteElementRanges := elementRangesText })

/-- String-level view of the range-list computation. -/
def parseText (s : String) : List (Nat × Nat) := parseRanges s.data

/-- Modelled from the spec: `addRange(rangeSet, newStart, newEnd)` appends the
contiguous span `[newStart, newEnd]` to the range set and restores canonical
form by the same sort-and-merge algorithm as `parse`. -/
def addRangeSpec (rs : List (Nat × Nat)) (a b : Nat) : List (Nat × Nat) :=
  mergeRanges (sortRanges (rs ++ [(a, b)]))

/-- Code path of `deleteElementsSelection` when the scene selection is the
contiguous identifier span `a..b`: the span's text (`str(a)`, plus a dash and
`str(b)` when `b > a`) is appended after a comma to the stored ranges text and
passed through `setDeleteElementsRangesText`, i.e. through
`_parseDeleteElementsRangesText`. -/
def appendSelectionSpan (s : ModelState) (a b : Nat) : Bool × ModelState :=
  parseDeleteElementsRangesText s
    (s.settingsDeleteElementRanges ++ ',' :: formatRange (a, b))

/-- Well-formedness of a range list: every range has start ≤ stop. -/
def RangesWF (l : List (Nat × Nat)) : Prop := ∀ r ∈ l, r.1 ≤ r.2

/-- Separation of a range list: each consecutive pair leaves a gap, so no two
ranges overlap or are adjacent. -/
def RangesSeparated (l : List (Nat × Nat)) : Prop :=
  l.Chain' (fun a b => a.2 + 1 < b.1)

/-- Canonical form of the spec: well-formed, sorted (implied), separated. -/
def CanonicalRS (l : List (Nat × Nat)) : Prop := RangesWF l ∧ RangesSeparated l

instance (l : List (Nat × Nat)) : Decidable (RangesWF l) :=
  inferInstanceAs (Decidable (∀ r ∈ l, r.1 ≤ r.2))

/-- Executable check of `RangesSeparated`. -/
def rangesSeparatedB : List (Nat × Nat) → Bool
  | [] => true
  | [_] => true
  | a :: b :: l => decide (a.2 + 1 < b.1) && rangesSeparatedB (b :: l)

theorem rangesSeparatedB_iff : ∀ l, rangesSeparatedB l = true ↔ RangesSeparated l := by
  intro l
  induction l with
  | nil => simp [rangesSeparatedB, RangesSeparated]
  | cons a t ih =>
    cases t with
    | nil => simp [rangesSeparatedB, RangesSeparated]
    | cons b u =>
      rw [RangesSeparated, List.chain'_cons]
      rw [show rangesSeparatedB (a :: b :: u) =
        (decide (a.2 + 1 < b.1) && rangesSeparatedB (b :: u)) from rfl]
      rw [Bool.and_eq_true, decide_eq_true_iff, ih]
      exact Iff.rfl

instance (l : List (Nat × Nat)) : Decidable (RangesSeparated l) :=
  decidable_of_iff _ (rangesSeparatedB_iff l)

instance (l : List (Nat × Nat)) : Decidable (CanonicalRS l) :=
  inferInstanceAs (Decidable (RangesWF l ∧ RangesSeparated l))

/-! ### Character and digit-string facts -/

theorem digit_ne_comma {c : Char} (h : c.isDigit = true) : c ≠ ',' := by
  intro e; subst e; exact absurd h (by decide)

theorem digit_ne_dash {c : Char} (h : c.isDigit = true) : c ≠ '-' := by
  intro e; subst e; exact absurd h (by decide)

theorem digit_ne_plus {c : Char} (h : c.isDigit = true) : c ≠ '+' := by
  intro e; subst e; exact absurd h (by decide)

theorem digit_not_pySpace {c : Char} (h : c.isDigit = true) : isPySpace c = false := by
  unfold isPySpace
  simp only [Bool.or_eq_false_iff, beq_eq_false_iff_ne]
  and_intros <;> (intro e; subst e; exact absurd h (by decide))

theorem digitChar_isDigit {d : Nat} (h : d < 10) : (digitChar d).isDigit = true := by
  interval_cases d <;> decide

theorem digitVal_digitChar {d : Nat} (h : d < 10) : digitVal (digitChar d) = d := by
  interval_cases d <;> decide

theorem natDigitsRevGo_fuel : ∀ f1 f2 n, n ≤ f1 → n ≤ f2 →
    natDigitsRevGo f1 n = natDigitsRevGo f2 n := by
  intro f1
  induction f1 with
  | zero =>
    intro f2 n h1 _
    interval_cases n
    cases f2 <;> simp [natDigitsRevGo]
  | succ f ih =>
    intro f2 n h1 h2
    by_cases hn : n < 10
    · cases f2 <;> simp [natDigitsRevGo, hn]
    · cases f2 with
      | zero => omega
      | succ f2' =>
        simp only [natDigitsRevGo, if_neg hn]
        rw [ih f2' (n / 10) (by omega) (by omega)]

theorem natDigits_eq (n : Nat) :
    natDigits n = if n < 10 then [digitChar n]
      else natDigits (n / 10) ++ [digitChar (n % 10)] := by
  unfold natDigits natDigitsRev
  by_cases h : n < 10
  · cases n with
    | zero => simp [natDigitsRevGo]
    | succ m => simp [natDigitsRevGo, h]
  · obtain ⟨m, rfl⟩ : ∃ m, n = m + 1 := ⟨n - 1, by omega⟩
    rw [if_neg h]
    simp only [natDigitsRevGo, if_neg h]
    rw [natDigitsRevGo_fuel m ((m + 1) / 10) ((m + 1) / 10) (by omega) (by omega)]
    simp

theorem natDigits_digits (n : Nat) : ∀ c ∈ natDigits n, c.isDigit = true := by
  induction n using Nat.strong_induction_on with
  | _ n ih =>
    rw [natDigits_eq]
    by_cases h : n < 10
    · rw [if_pos h]
      intro c hc
      rw [List.mem_singleton] at hc
      subst hc
      exact digitChar_isDigit h
    · rw [if_neg h]
      intro c hc
      rcases List.mem_append.mp hc with hc | hc
      · exact ih (n / 10) (by omega) c hc
      · rw [List.mem_singleton] at hc
        subst hc
        exact digitChar_isDigit (by omega)

theorem natDigits_ne_nil (n : Nat) : natDigits n ≠ [] := by
  rw [natDigits_eq]
  by_cases h : n < 10 <;> simp [h]

theorem foldl_natDigits (n : Nat) :
    (natDigits n).foldl (fun a c => a * 10 + digitVal c) 0 = n := by
  induction n using Nat.strong_induction_on with
  | _ n ih =>
    rw [natDigits_eq]
    by_cases h : n < 10
    · rw [if_pos h]
      simp [List.foldl, digitVal_digitChar h]
    · rw [if_neg h, List.foldl_append]
      rw [ih (n / 10) (by omega)]
      simp only [List.foldl]
      rw [digitVal_digitChar (d := n % 10) (by omega)]
      omega

/-! ### Integer parsing of digit strings -/

theorem pyIntAux_cons_digit {c : Char} {rest : List Char} {acc : Nat}
    (hc : c.isDigit = true) :
    pyIntAux (c :: rest) acc = pyIntAux rest (acc * 10 + digitVal c) := by
  rw [pyIntAux.eq_def]
  simp [hc]

theorem pyIntCore_cons (c : Char) (rest : List Char) :
    pyIntCore (c :: rest) = if c.isDigit then pyIntAux rest (digitVal c) else none := by
  rw [pyIntCore.eq_def]

theorem pyIntAux_digits : ∀ (l : List Char) (acc : Nat), (∀ c ∈ l, c.isDigit = true) →
    pyIntAux l acc = some (l.foldl (fun a c => a * 10 + digitVal c) acc) := by
  intro l
  induction l with
  | nil => intro acc _; rfl
  | cons c rest ih =>
    intro acc h
    have hc := h c (by simp)
    rw [pyIntAux_cons_digit hc, List.foldl_cons]
    exact ih _ (fun x hx => h x (by simp [hx]))

theorem pyIntCore_digits {s : List Char} (hne : s ≠ []) (h : ∀ c ∈ s, c.isDigit = true) :
    pyIntCore s = some (s.foldl (fun a c => a * 10 + digitVal c) 0) := by
  cases s with
  | nil => exact absurd rfl hne
  | cons c rest =>
    have hc := h c (by simp)
    rw [pyIntCore_cons, if_pos hc, List.foldl_cons]
    rw [pyIntAux_digits rest _ (fun x hx => h x (by simp [hx]))]
    simp

theorem trimSpaces_digits {s : List Char} (h : ∀ c ∈ s, c.isDigit = true) :
    trimSpaces s = s := by
  unfold trimSpaces
  have h1 : s.dropWhile isPySpace = s := by
    cases s with
    | nil => rfl
    | cons c rest =>
      rw [List.dropWhile_cons, if_neg]
      rw [digit_not_pySpace (h c (by simp))]
      simp
  rw [h1]
  have h2 : s.reverse.dropWhile isPySpace = s.reverse := by
    cases hr : s.reverse with
    | nil => rfl
    | cons c rest =>
      rw [List.dropWhile_cons, if_neg]
      have hc : c ∈ s := by
        rw [← List.mem_reverse, hr]; simp
      rw [digit_not_pySpace (h c hc)]
      simp
  rw [h2, List.reverse_reverse]

theorem stripSign_digits {s : List Char} (h : ∀ c ∈ s, c.isDigit = true) :
    stripSign s = s := by
  cases s with
  | nil => rfl
  | cons c rest =>
    simp only [stripSign]
    rw [if_neg (digit_ne_plus (h c (by simp)))]

theorem pyInt_digits {s : List Char} (hne : s ≠ []) (h : ∀ c ∈ s, c.isDigit = true) :
    pyInt s = some (s.foldl (fun a c => a * 10 + digitVal c) 0) := by
  unfold pyInt
  rw [trimSpaces_digits h, stripSign_digits h, pyIntCore_digits hne h]

theorem pyInt_natDigits (n : Nat) : pyInt (natDigits n) = some n := by
  rw [pyInt_digits (natDigits_ne_nil n) (natDigits_digits n), foldl_natDigits]

theorem stripPure_digits {s : List Char} (h : ∀ c ∈ s, c.isDigit = true) :
    stripPure s = s := by
  cases s with
  | nil => rfl
  | cons c rest =>
    have ht : (c :: rest).reverse.takeWhile (fun c => ! c.isDigit) = [] := by
      cases hr : (c :: rest).reverse with
      | nil => rfl
      | cons d ds =>
        rw [List.takeWhile_cons, if_neg]
        have hd : d ∈ c :: rest := by
          rw [← List.mem_reverse, hr]; simp
        rw [h d hd]
        simp
    unfold stripPure stripPart
    rw [if_neg (show ¬(c :: rest = []) by simp)]
    simp only [ht, List.length_nil, List.length_cons]
    simp

/-! ### Splitting on delimiters -/

theorem splitOn_first {sep : Char} {xs : List Char} (h : ∀ x ∈ xs, x ≠ sep) (as : List Char) :
    (xs ++ sep :: as).splitOn sep = xs :: as.splitOn sep := by
  apply List.splitOnP_first
  · intro x hx; simpa using h x hx
  · simp

theorem splitOn_single {sep : Char} {xs : List Char} (h : ∀ x ∈ xs, x ≠ sep) :
    xs.splitOn sep = [xs] := by
  apply List.splitOnP_eq_single
  intro x hx; simpa using h x hx

theorem splitOn_ne_nil (sep : Char) (xs : List Char) : xs.splitOn sep ≠ [] :=
  List.splitOnP_ne_nil _ xs

theorem natDigits_splitOn_dash (n : Nat) : (natDigits n).splitOn '-' = [natDigits n] :=
  splitOn_single (fun c hc => digit_ne_dash (natDigits_digits n c hc))

theorem pair_splitOn_dash (a b : Nat) :
    (natDigits a ++ '-' :: natDigits b).splitOn '-' = [natDigits a, natDigits b] := by
  rw [splitOn_first (fun c hc => digit_ne_dash (natDigits_digits a c hc)),
    natDigits_splitOn_dash]

/-! ### Leak independence of token processing -/

theorem stripParts_some_fst (parts : List (List Char)) : ∀ k : Nat,
    (stripParts (some k) parts).1 = some (parts.map stripPure) := by
  induction parts with
  | nil => intro k; rfl
  | cons s rest ih =>
    intro k
    by_cases hs : s = []
    · subst hs
      simp only [stripParts, if_pos rfl, ih k, Option.map_some, List.map_cons]
      rfl
    · simp only [stripParts, if_neg hs, ih]
      simp [stripPure, hs]

theorem pyInt_nil : pyInt [] = none := rfl

theorem processToken_fst (leak : Option Nat) (tok : List Char) :
    (processToken leak tok).1 = pureToken tok := by
  unfold processToken pureToken
  cases htok : tok.splitOn '-' with
  | nil => exact absurd htok (splitOn_ne_nil '-' tok)
  | cons s rest =>
    cases leak with
    | some k =>
      show ((stripParts (some k) (s :: rest)).1.bind rangeOfParts) =
        rangeOfParts ((s :: rest).map stripPure)
      rw [stripParts_some_fst]
      rfl
    | none =>
      by_cases hs : s = []
      · subst hs
        simp only [stripParts, if_pos rfl]
        show (none : Option (Nat × Nat)) = rangeOfParts ([] :: rest.map stripPure)
        rfl
      · simp only [stripParts, if_neg hs, stripParts_some_fst, Option.map_some]
        show rangeOfParts ((stripPart s).1 :: rest.map stripPure) =
          rangeOfParts (stripPure s :: rest.map stripPure)
        rw [stripPure, if_neg hs]

theorem collectRanges_eq (toks : List (List Char)) : ∀ leak : Option Nat,
    collectRanges leak toks = toks.filterMap pureToken := by
  induction toks with
  | nil => intro leak; rfl
  | cons t ts ih =>
    intro leak
    simp only [collectRanges, List.filterMap_cons]
    rw [processToken_fst, ih]
    cases pureToken t <;> simp

theorem parseRanges_eq (text : List Char) :
    parseRanges text =
      mergeRanges (sortRanges ((text.splitOn ',').filterMap pureToken)) := by
  rw [parseRanges, collectRanges_eq]

/-! ### The merge pass -/

theorem mergeLoop_head_fst : ∀ (l : List (Nat × Nat)) (cur : Nat × Nat),
    (mergeLoop cur l).head?.map Prod.fst = some cur.1 := by
  intro l
  induction l with
  | nil => intro cur; rfl
  | cons r rest ih =>
    intro cur
    rw [mergeLoop]
    by_cases h : r.1 ≤ cur.2 + 1
    · rw [if_pos h, ih]
    · rw [if_neg h]
      rfl

theorem mergeLoop_wf : ∀ (l : List (Nat × Nat)) (cur : Nat × Nat), cur.1 ≤ cur.2 →
    (∀ r ∈ l, r.1 ≤ r.2) → ∀ r ∈ mergeLoop cur l, r.1 ≤ r.2 := by
  intro l
  induction l with
  | nil =>
    intro cur hcur _ r hr
    rw [mergeLoop, List.mem_singleton] at hr
    subst hr; exact hcur
  | cons x rest ih =>
    intro cur hcur hl r hr
    rw [mergeLoop] at hr
    by_cases h : x.1 ≤ cur.2 + 1
    · rw [if_pos h] at hr
      refine ih _ ?_ (fun y hy => hl y (by simp [hy])) r hr
      have := hl x (by simp)
      show cur.1 ≤ _
      by_cases hx : cur.2 < x.2 <;> simp [hx] <;> omega
    · rw [if_neg h, List.mem_cons] at hr
      rcases hr with hr | hr
      · subst hr; exact hcur
      · exact ih x (hl x (by simp)) (fun y hy => hl y (by simp [hy])) r hr

theorem mergeLoop_separated : ∀ (l : List (Nat × Nat)) (cur : Nat × Nat),
    (∀ r ∈ l, cur.1 ≤ r.1) → l.Pairwise (fun a b => a.1 ≤ b.1) →
    (mergeLoop cur l).Chain' (fun a b => a.2 + 1 < b.1) := by
  intro l
  induction l with
  | nil => intro cur _ _; simp [mergeLoop]
  | cons x rest ih =>
    intro cur hcur hp
    rw [mergeLoop]
    rw [List.pairwise_cons] at hp
    by_cases h : x.1 ≤ cur.2 + 1
    · rw [if_pos h]
      exact ih _ (fun y hy => hcur y (by simp [hy])) hp.2
    · rw [if_neg h]
      rw [List.chain'_cons']
      constructor
      · intro y hy
        have hhead := mergeLoop_head_fst rest x
        cases hh : (mergeLoop x rest).head? with
        | none => rw [hh] at hy; simp at hy
        | some z =>
          rw [hh] at hy hhead
          simp at hy hhead
          subst hy
          omega
      · exact ih x hp.1 hp.2

theorem mergeLoop_of_separated : ∀ (l : List (Nat × Nat)) (cur : Nat × Nat),
    (cur :: l).Chain' (fun a b => a.2 + 1 < b.1) → mergeLoop cur l = cur :: l := by
  intro l
  induction l with
  | nil => intro cur _; rfl
  | cons x rest ih =>
    intro cur hc
    rw [List.chain'_cons] at hc
    rw [mergeLoop, if_neg (by omega)]
    rw [ih x hc.2]

theorem mergeRanges_wf {l : List (Nat × Nat)} (h : ∀ r ∈ l, r.1 ≤ r.2) :
    ∀ r ∈ mergeRanges l, r.1 ≤ r.2 := by
  cases l with
  | nil => simp [mergeRanges]
  | cons x rest =>
    rw [mergeRanges]
    exact mergeLoop_wf rest x (h x (by simp)) (fun y hy => h y (by simp [hy]))

theorem mergeRanges_separated {l : List (Nat × Nat)}
    (h : l.Pairwise (fun a b => a.1 ≤ b.1)) : RangesSeparated (mergeRanges l) := by
  cases l with
  | nil => simp [mergeRanges, RangesSeparated]
  | cons x rest =>
    rw [List.pairwise_cons] at h
    exact mergeLoop_separated rest x h.1 h.2

theorem mergeRanges_of_separated {l : List (Nat × Nat)} (h : RangesSeparated l) :
    mergeRanges l = l := by
  cases l with
  | nil => rfl
  | cons x rest =>
    rw [mergeRanges]
    exact mergeLoop_of_separated rest x h

theorem mergeRanges_cons_cons (r1 r2 : Nat × Nat) (rest : List (Nat × Nat)) :
    mergeRanges (r1 :: r2 :: rest) =
      if r2.1 ≤ r1.2 + 1 then mergeRanges ((r1.1, max r1.2 r2.2) :: rest)
      else r1 :: mergeRanges (r2 :: rest) := by
  have hmax : (if r1.2 < r2.2 then r2.2 else r1.2) = max r1.2 r2.2 := by
    split <;> omega
  rw [mergeRanges, mergeLoop, hmax]
  by_cases h : r2.1 ≤ r1.2 + 1
  · rw [if_pos h, if_pos h, mergeRanges]
  · rw [if_neg h, if_neg h, mergeRanges]

/-! ### The sort pass and canonical form -/

theorem sortRanges_sorted (l : List (Nat × Nat)) : (sortRanges l).Pairwise rangeLe :=
  List.sorted_insertionSort rangeLe l

theorem sortRanges_mem {l : List (Nat × Nat)} {r : Nat × Nat} :
    r ∈ sortRanges l ↔ r ∈ l :=
  (List.perm_insertionSort rangeLe l).mem_iff

theorem sortRanges_of_sorted {l : List (Nat × Nat)} (h : l.Pairwise rangeLe) :
    sortRanges l = l :=
  List.Sorted.insertionSort_eq h

theorem rangeLe_fst {a b : Nat × Nat} (h : rangeLe a b) : a.1 ≤ b.1 := by
  unfold rangeLe at h; omega

theorem chain'_fst_lt_of_separated {l : List (Nat × Nat)} (hwf : ∀ r ∈ l, r.1 ≤ r.2)
    (h : RangesSeparated l) : l.Chain' (fun a b => a.1 < b.1) := by
  unfold RangesSeparated at h
  induction l with
  | nil => simp
  | cons a t ih =>
    rw [List.chain'_cons'] at h ⊢
    refine ⟨?_, ih (fun r hr => hwf r (by simp [hr])) h.2⟩
    intro y hy
    have h1 := h.1 y hy
    have h2 := hwf a (by simp)
    omega

theorem canonical_pairwise {l : List (Nat × Nat)} (h : CanonicalRS l) :
    l.Pairwise rangeLe := by
  have hlt : l.Chain' (fun a b => a.1 < b.1) := chain'_fst_lt_of_separated h.1 h.2
  have : IsTrans (Nat × Nat) (fun a b => a.1 < b.1) :=
    ⟨fun a b c hab hbc => by omega⟩
  have hp : l.Pairwise (fun a b : Nat × Nat => a.1 < b.1) :=
    List.chain'_iff_pairwise.mp hlt
  exact hp.imp (fun hab => Or.inl hab)

/-! ### Token conversion equations -/

theorem rangeOfParts_cons (p0 : List Char) (restp : List (List Char)) :
    rangeOfParts (p0 :: restp) =
      match pyInt p0 with
      | none => none
      | some a =>
        match rangeStop a restp with
        | none => none
        | some b => some (if a ≤ b then (a, b) else (b, a)) := rfl

theorem rangeOfParts_none {p0 : List Char} (h : pyInt p0 = none)
    (restp : List (List Char)) : rangeOfParts (p0 :: restp) = none := by
  rw [rangeOfParts_cons, h]

theorem rangeOfParts_single {p0 : List Char} {a : Nat} (h : pyInt p0 = some a) :
    rangeOfParts [p0] = some (a, a) := by
  rw [rangeOfParts_cons, h]
  simp [rangeStop]

theorem rangeOfParts_pair {p0 p1 : List Char} {t : List (List Char)} {a b : Nat}
    (h0 : pyInt p0 = some a) (h1 : pyInt p1 = some b) :
    rangeOfParts (p0 :: p1 :: t) = some (if a ≤ b then (a, b) else (b, a)) := by
  rw [rangeOfParts_cons, h0]
  show (match rangeStop a (p1 :: t) with
    | none => none
    | some b => some (if a ≤ b then (a, b) else (b, a))) = _
  rw [show rangeStop a (p1 :: t) = pyInt p1 from rfl, h1]

theorem rangeOfParts_pair_stop_none {p0 p1 : List Char} {t : List (List Char)}
    (h1 : pyInt p1 = none) : rangeOfParts (p0 :: p1 :: t) = none := by
  rw [rangeOfParts_cons]
  cases h0 : pyInt p0 with
  | none => rfl
  | some a =>
    show (match rangeStop a (p1 :: t) with
      | none => none
      | some b => some (if a ≤ b then (a, b) else (b, a))) = _
    rw [show rangeStop a (p1 :: t) = pyInt p1 from rfl, h1]

theorem rangeOfParts_extra (p0 p1 : List Char) (t : List (List Char)) :
    rangeOfParts (p0 :: p1 :: t) = rangeOfParts [p0, p1] := by
  rw [rangeOfParts_cons, rangeOfParts_cons]
  cases pyInt p0 <;> rfl

theorem rangeOfParts_wf {ps : List (List Char)} {r : Nat × Nat}
    (h : rangeOfParts ps = some r) : r.1 ≤ r.2 := by
  cases ps with
  | nil => exact absurd h (by simp [rangeOfParts])
  | cons p0 restp =>
    rw [rangeOfParts_cons] at h
    cases h0 : pyInt p0 with
    | none => rw [h0] at h; exact absurd h (by simp)
    | some a =>
      rw [h0] at h
      have h' : (match rangeStop a restp with
        | none => none
        | some b => some (if a ≤ b then (a, b) else (b, a))) = some r := h
      cases hs : rangeStop a restp with
      | none => rw [hs] at h'; exact absurd h' (by simp)
      | some b =>
        rw [hs] at h'
        simp only [Option.some.injEq] at h'
        subst h'
        by_cases hab : a ≤ b
        · rw [if_pos hab]; exact hab
        · rw [if_neg hab]; omega

/-! ### Round trip of formatted text -/

theorem pureToken_formatRange {r : Nat × Nat} (h : r.1 ≤ r.2) :
    pureToken (formatRange r) = some r := by
  obtain ⟨a, b⟩ := r
  simp only at h
  show pureToken (natDigits a ++ if b ≠ a then '-' :: natDigits b else []) = some (a, b)
  by_cases hab : b = a
  · subst hab
    rw [if_neg (show ¬(b ≠ b) by simp), List.append_nil]
    unfold pureToken
    rw [natDigits_splitOn_dash]
    simp only [List.map_cons, List.map_nil]
    rw [stripPure_digits (natDigits_digits b)]
    exact rangeOfParts_single (pyInt_natDigits b)
  · rw [if_pos hab]
    unfold pureToken
    rw [pair_splitOn_dash]
    simp only [List.map_cons, List.map_nil]
    rw [stripPure_digits (natDigits_digits a), stripPure_digits (natDigits_digits b)]
    rw [rangeOfParts_pair (pyInt_natDigits a) (pyInt_natDigits b), if_pos h]

theorem comma_not_in_formatRange (r : Nat × Nat) : ∀ c ∈ formatRange r, c ≠ ',' := by
  intro c hc
  unfold formatRange at hc
  rcases List.mem_append.mp hc with hc | hc
  · exact digit_ne_comma (natDigits_digits _ c hc)
  · by_cases hr : r.2 ≠ r.1
    · rw [if_pos hr] at hc
      rcases List.mem_cons.mp hc with hc | hc
      · subst hc; decide
      · exact digit_ne_comma (natDigits_digits _ c hc)
    · rw [if_neg hr] at hc
      exact absurd hc (by simp)

theorem formatRanges_single (r : Nat × Nat) : formatRanges [r] = formatRange r := by
  simp [formatRanges]

theorem formatRanges_cons_ne (r : Nat × Nat) {rs : List (Nat × Nat)} (h : rs ≠ []) :
    formatRanges (r :: rs) = formatRange r ++ ',' :: formatRanges rs := by
  cases rs with
  | nil => exact absurd rfl h
  | cons r2 rs2 => simp [formatRanges]

theorem formatRanges_splitOn_append : ∀ (R : List (Nat × Nat)), R ≠ [] → ∀ rest : List Char,
    (formatRanges R ++ ',' :: rest).splitOn ',' = R.map formatRange ++ rest.splitOn ',' := by
  intro R
  induction R with
  | nil => intro h; exact absurd rfl h
  | cons r rs ih =>
    intro _ rest
    by_cases hrs : rs = []
    · subst hrs
      rw [formatRanges_single, splitOn_first (comma_not_in_formatRange r)]
      rfl
    · rw [formatRanges_cons_ne r hrs, List.append_assoc,
        show (',' :: formatRanges rs) ++ ',' :: rest = ',' :: (formatRanges rs ++ ',' :: rest)
          from rfl,
        splitOn_first (comma_not_in_formatRange r), ih hrs rest]
      rfl

theorem formatRanges_splitOn : ∀ (R : List (Nat × Nat)), R ≠ [] →
    (formatRanges R).splitOn ',' = R.map formatRange := by
  intro R
  induction R with
  | nil => intro h; exact absurd rfl h
  | cons r rs ih =>
    intro _
    by_cases hrs : rs = []
    · subst hrs
      rw [formatRanges_single, splitOn_single (comma_not_in_formatRange r)]
      rfl
    · rw [formatRanges_cons_ne r hrs, splitOn_first (comma_not_in_formatRange r), ih hrs]
      rfl

theorem filterMap_formatRange {R : List (Nat × Nat)} (hwf : RangesWF R) :
    (R.map formatRange).filterMap pureToken = R := by
  induction R with
  | nil => rfl
  | cons r rs ih =>
    rw [List.map_cons, List.filterMap_cons, pureToken_formatRange (hwf r (by simp))]
    rw [ih (fun x hx => hwf x (by simp [hx]))]

theorem parseRanges_formatRanges {R : List (Nat × Nat)} (h : CanonicalRS R) :
    parseRanges (formatRanges R) = R := by
  by_cases hR : R = []
  · subst hR; rfl
  · rw [parseRanges_eq, formatRanges_splitOn R hR, filterMap_formatRange h.1,
      sortRanges_of_sorted (canonical_pairwise h), mergeRanges_of_separated h.2]

/-! ### Tokens that fail to parse -/

theorem mem_stripPart {c : Char} {s : List Char} (h : c ∈ (stripPart s).1) : c ∈ s := by
  have he : (stripPart s).1 =
      if 0 < (stripPart s).2 then s.take (s.length - (stripPart s).2) else s := rfl
  rw [he] at h
  split at h
  · exact List.mem_of_mem_take h
  · exact h

theorem mem_stripPure {c : Char} {s : List Char} (h : c ∈ stripPure s) : c ∈ s := by
  unfold stripPure at h
  split at h
  · exact absurd h (by simp)
  · exact mem_stripPart h

theorem mem_trimSpaces {c : Char} {s : List Char} (h : c ∈ trimSpaces s) : c ∈ s := by
  unfold trimSpaces at h
  rw [List.mem_reverse] at h
  have h1 := List.dropWhile_subset isPySpace h
  rw [List.mem_reverse] at h1
  exact List.dropWhile_subset isPySpace h1

theorem mem_stripSign {c : Char} {s : List Char} (h : c ∈ stripSign s) : c ∈ s := by
  cases s with
  | nil => exact h
  | cons d rest =>
    have he : stripSign (d :: rest) = if d = '+' then rest else d :: rest := rfl
    rw [he] at h
    split at h
    · exact List.mem_cons_of_mem d h
    · exact h

theorem pyInt_no_digit {s : List Char} (h : ∀ c ∈ s, c.isDigit = false) :
    pyInt s = none := by
  unfold pyInt
  cases hc : stripSign (trimSpaces s) with
  | nil => rfl
  | cons c rest =>
    have hmem : c ∈ s := mem_trimSpaces (mem_stripSign (by rw [hc]; simp))
    rw [pyIntCore_cons]
    simp [h c hmem]

theorem pyInt_stripPure_bad {s : List Char}
    (h : s = [] ∨ ∀ c ∈ s, c.isDigit = false) : pyInt (stripPure s) = none := by
  rcases h with h | h
  · subst h; rfl
  · exact pyInt_no_digit (fun c hc => h c (mem_stripPure hc))

/-! ### The claims -/

/-- C1: for every input text string, the range list computed by
`_parseDeleteElementsRangesText` is in canonical form: every range has
start ≤ end, the ranges are sorted (strictly) ascending by start, and every
pair of consecutive ranges R1, R2 satisfies R2.start > R1.end + 1, so no two
ranges overlap or are adjacent. -/
theorem parse_always_canonical (text : List Char) :
    RangesWF (parseRanges text) ∧
    (parseRanges text).Chain' (fun a b => a.1 < b.1) ∧
    RangesSeparated (parseRanges text) := by
  have hwf_raw : ∀ r ∈ (text.splitOn ',').filterMap pureToken, r.1 ≤ r.2 := by
    intro r hr
    obtain ⟨tok, _, htok⟩ := List.mem_filterMap.mp hr
    exact rangeOfParts_wf htok
  have hwf_sorted : ∀ r ∈ sortRanges ((text.splitOn ',').filterMap pureToken), r.1 ≤ r.2 :=
    fun r hr => hwf_raw r (sortRanges_mem.mp hr)
  have hpair : (sortRanges ((text.splitOn ',').filterMap pureToken)).Pairwise
      (fun a b => a.1 ≤ b.1) :=
    (sortRanges_sorted _).imp rangeLe_fst
  rw [parseRanges_eq]
  exact ⟨mergeRanges_wf hwf_sorted,
    chain'_fst_lt_of_separated (mergeRanges_wf hwf_sorted) (mergeRanges_separated hpair),
    mergeRanges_separated hpair⟩

/-- C2: the merge pass scans the sorted raw list left to right; a range whose
start is at most the previous range's end + 1 is merged into one range ending
at the maximum of the two ends, otherwise the ranges stay distinct; in
particular parse("1-3,4-6") yields [[1,6]] and parse("1-3,5-6") yields
[[1,3],[5,6]]. -/
theorem merge_pass_spec :
    (∀ (r1 r2 : Nat × Nat) (rest : List (Nat × Nat)),
      mergeRanges (r1 :: r2 :: rest) =
        if r2.1 ≤ r1.2 + 1 then mergeRanges ((r1.1, max r1.2 r2.2) :: rest)
        else r1 :: mergeRanges (r2 :: rest)) ∧
    parseText "1-3,4-6" = [(1, 6)] ∧ parseText "1-3,5-6" = [(1, 3), (5, 6)] :=
  ⟨mergeRanges_cons_cons, by decide, by decide⟩

/-- C3: parsing is total and never aborts the batch: the result is exactly
the sort-and-merge of the per-token results, where each comma-separated token
independently contributes its range or is silently skipped when its
conversion fails; in particular parse("3,,abc,7-") evaluates (it does not
raise) to [[3,3]], which contains the range [3,3]. -/
theorem parse_never_raises (text : List Char) :
    parseRanges text =
      mergeRanges (sortRanges ((text.splitOn ',').filterMap pureToken)) ∧
    parseText "3,,abc,7-" = [(3, 3)] ∧ (3, 3) ∈ parseText "3,,abc,7-" :=
  ⟨parseRanges_eq text, by decide, by decide⟩

/-- C4: round-trip idempotence on canonical form: for every canonical range
set R, parse(format(R)) = R and format(parse(format(R))) = format(R); and for
every valid input "a-b" with a ≤ b, parse followed by format returns "a-b"
when a < b and "a" when a = b. -/
theorem parse_format_roundtrip :
    (∀ R : List (Nat × Nat), CanonicalRS R →
      parseRanges (formatRanges R) = R ∧
      formatRanges (parseRanges (formatRanges R)) = formatRanges R) ∧
    (∀ a b : Nat, a ≤ b →
      formatRanges (parseRanges (natDigits a ++ '-' :: natDigits b)) =
        if a < b then natDigits a ++ '-' :: natDigits b else natDigits a) := by
  constructor
  · intro R h
    have h1 := parseRanges_formatRanges h
    exact ⟨h1, by rw [h1]⟩
  · intro a b hab
    have htok : pureToken (natDigits a ++ '-' :: natDigits b) = some (a, b) := by
      unfold pureToken
      rw [pair_splitOn_dash]
      simp only [List.map_cons, List.map_nil]
      rw [stripPure_digits (natDigits_digits a), stripPure_digits (natDigits_digits b)]
      rw [rangeOfParts_pair (pyInt_natDigits a) (pyInt_natDigits b), if_pos hab]
    have hparse : parseRanges (natDigits a ++ '-' :: natDigits b) = [(a, b)] := by
      rw [parseRanges_eq]
      have hsplit : (natDigits a ++ '-' :: natDigits b).splitOn ',' =
          [natDigits a ++ '-' :: natDigits b] := by
        apply splitOn_single
        intro c hc
        rcases List.mem_append.mp hc with hc | hc
        · exact digit_ne_comma (natDigits_digits a c hc)
        · rcases List.mem_cons.mp hc with hc | hc
          · subst hc; decide
          · exact digit_ne_comma (natDigits_digits b c hc)
      rw [hsplit, List.filterMap_cons, htok]
      simp only [List.filterMap_nil]
      rw [sortRanges_of_sorted (by simp : List.Pairwise rangeLe [(a, b)])]
      rfl
    rw [hparse, formatRanges_single]
    show natDigits a ++ (if b ≠ a then '-' :: natDigits b else []) = _
    by_cases hlt : a < b
    · rw [if_pos (by omega : b ≠ a), if_pos hlt]
    · have hba : b = a := by omega
      subst hba
      rw [if_neg (by simp), if_neg hlt, List.append_nil]

/-- Witness for C4 at concrete inputs. -/
theorem parse_format_roundtrip_witness :
    (CanonicalRS [(3, 3), (5, 5), (8, 10)] ∧
      parseRanges (formatRanges [(3, 3), (5, 5), (8, 10)]) = [(3, 3), (5, 5), (8, 10)]) ∧
    (2 ≤ 7 ∧ formatRanges (parseRanges (natDigits 2 ++ '-' :: natDigits 7)) =
      if 2 < 7 then natDigits 2 ++ '-' :: natDigits 7 else natDigits 2) :=
  ⟨⟨by decide, (parse_format_roundtrip.1 [(3, 3), (5, 5), (8, 10)] (by decide)).1⟩,
   ⟨by decide, parse_format_roundtrip.2 2 7 (by decide)⟩⟩

/-- C5: for a two-part token whose parts both convert to integers, a second
value smaller than the first makes the pair get swapped, so the resulting
range is [y, x] with start ≤ end; in particular parse("10-2") yields
[[2,10]]. -/
theorem token_swap_on_reverse :
    (∀ (leak : Option Nat) (p0 p1 : List Char) (x y : Nat),
      (∀ c ∈ p0, c ≠ '-') → (∀ c ∈ p1, c ≠ '-') →
      pyInt (stripPure p0) = some x → pyInt (stripPure p1) = some y → y < x →
      (processToken leak (p0 ++ '-' :: p1)).1 = some (y, x)) ∧
    parseText "10-2" = [(2, 10)] := by
  constructor
  · intro leak p0 p1 x y h0 h1 hx hy hyx
    rw [processToken_fst]
    unfold pureToken
    rw [splitOn_first h0, splitOn_single h1]
    simp only [List.map_cons, List.map_nil]
    rw [rangeOfParts_pair hx hy, if_neg (by omega)]
  · decide

/-- Witness for C5 at the token "10-2". -/
theorem token_swap_on_reverse_witness :
    ((∀ c ∈ "10".data, c ≠ '-') ∧ (∀ c ∈ "2".data, c ≠ '-') ∧
      pyInt (stripPure "10".data) = some 10 ∧ pyInt (stripPure "2".data) = some 2 ∧
      2 < 10) ∧
    (processToken none ("10".data ++ '-' :: "2".data)).1 = some (2, 10) :=
  ⟨⟨by decide, by decide, by decide, by decide, by decide⟩,
   token_swap_on_reverse.1 none "10".data "2".data 10 2 (by decide) (by decide)
     (by decide) (by decide) (by decide)⟩

/-- C6: the flag returned by `_parseDeleteElementsRangesText` is true exactly
when the newly computed canonical range list differs from the previously held
one, and false when they are identical. -/
theorem changed_flag_correct (s : ModelState) (text : List Char) :
    (parseDeleteElementsRangesText s text).1 = true ↔
      (parseDeleteElementsRangesText s text).2.deleteElementRanges ≠
        s.deleteElementRanges := by
  unfold parseDeleteElementsRangesText
  simp only [decide_eq_true_eq]
  exact ne_comm

/-- C7: appending a contiguous identifier span, as `deleteElementsSelection`
does by concatenating the stored canonical text, a comma and the span's text
and re-parsing through `_parseDeleteElementsRangesText`, produces exactly the
canonical range set of the spec's addRange (append the span, then restore
canonical form by the same sort-and-merge): there is no separate merge data
path. -/
theorem deleteSelection_reuses_parse (R : List (Nat × Nat)) (hwf : RangesWF R)
    (a b : Nat) (hab : a ≤ b) :
    (appendSelectionSpan ⟨R, formatRanges R⟩ a b).2.deleteElementRanges =
      addRangeSpec R a b ∧
    parseRanges (formatRanges R ++ ',' :: formatRange (a, b)) = addRangeSpec R a b := by
  have key : parseRanges (formatRanges R ++ ',' :: formatRange (a, b)) =
      addRangeSpec R a b := by
    rw [parseRanges_eq, addRangeSpec]
    have htoks : ((formatRanges R ++ ',' :: formatRange (a, b)).splitOn ',').filterMap
        pureToken = R ++ [(a, b)] := by
      by_cases hR : R = []
      · subst hR
        show (((formatRanges []) ++ ',' :: formatRange (a, b)).splitOn ',').filterMap
          pureToken = [(a, b)]
        rw [show formatRanges [] ++ ',' :: formatRange (a, b) =
          ([] : List Char) ++ ',' :: formatRange (a, b) from rfl]
        rw [splitOn_first (by intro x hx; exact absurd hx (by simp))]
        rw [splitOn_single (comma_not_in_formatRange (a, b))]
        rw [List.filterMap_cons, show pureToken [] = none from rfl]
        rw [List.filterMap_cons, pureToken_formatRange (show (a, b).1 ≤ (a, b).2 from hab)]
        rfl
      · rw [formatRanges_splitOn_append R hR,
          splitOn_single (comma_not_in_formatRange (a, b)),
          List.filterMap_append, filterMap_formatRange hwf,
          List.filterMap_cons, pureToken_formatRange (show (a, b).1 ≤ (a, b).2 from hab)]
        rfl
    rw [htoks]
  exact ⟨key, key⟩

/-- Witness for C7 at a concrete range set and span. -/
theorem deleteSelection_reuses_parse_witness :
    (RangesWF [(1, 2), (9, 9)] ∧ 4 ≤ 6) ∧
    parseRanges (formatRanges [(1, 2), (9, 9)] ++ ',' :: formatRange (4, 6)) =
      addRangeSpec [(1, 2), (9, 9)] 4 6 :=
  ⟨⟨by decide, by decide⟩,
   (deleteSelection_reuses_parse [(1, 2), (9, 9)] (by decide) 4 6 (by decide)).2⟩

/-- C8: the transformation is pure and stateless: the stored canonical range
list and canonical text after a call depend only on the input text and never
on the previously persisted state, and the per-call token loop result does
not depend on the carried-over loop variable either. -/
theorem parse_pure_stateless (text : List Char) :
    (∀ s1 s2 : ModelState,
      (parseDeleteElementsRangesText s1 text).2 =
        (parseDeleteElementsRangesText s2 text).2) ∧
    (∀ (l1 l2 : Option Nat) (toks : List (List Char)),
      collectRanges l1 toks = collectRanges l2 toks) :=
  ⟨fun _ _ => rfl,
   fun l1 l2 toks => by rw [collectRanges_eq toks l1, collectRanges_eq toks l2]⟩

/-- C9: a dashed token one of whose two parts is empty or contains no digit
is skipped entirely, its valid side included; in particular
parse("3,7-,-5") yields only [[3,3]]. -/
theorem token_bad_side_skipped :
    (∀ (leak : Option Nat) (p0 p1 : List Char),
      (∀ c ∈ p0, c ≠ '-') → (∀ c ∈ p1, c ≠ '-') →
      ((p0 = [] ∨ ∀ c ∈ p0, c.isDigit = false) ∨
       (p1 = [] ∨ ∀ c ∈ p1, c.isDigit = false)) →
      (processToken leak (p0 ++ '-' :: p1)).1 = none) ∧
    parseText "3,7-,-5" = [(3, 3)] := by
  constructor
  · intro leak p0 p1 h0 h1 hbad
    rw [processToken_fst]
    unfold pureToken
    rw [splitOn_first h0, splitOn_single h1]
    simp only [List.map_cons, List.map_nil]
    rcases hbad with hb | hb
    · exact rangeOfParts_none (pyInt_stripPure_bad hb) _
    · exact rangeOfParts_pair_stop_none (pyInt_stripPure_bad hb)
  · decide

/-- Witness for C9 at the token "7-". -/
theorem token_bad_side_skipped_witness :
    ((∀ c ∈ "7".data, c ≠ '-') ∧ (∀ c ∈ ([] : List Char), c ≠ '-')) ∧
    (processToken none ("7".data ++ '-' :: ([] : List Char))).1 = none :=
  ⟨⟨by decide, by decide⟩,
   token_bad_side_skipped.1 none "7".data [] (by decide) (by decide)
     (Or.inr (Or.inl rfl))⟩

/-- C10: a token with more than one dash is not rejected as malformed: every
part after the second is ignored and the token behaves exactly like the token
formed from its first two parts; in particular parse("1-2-3") yields
[[1,2]]. -/
theorem token_extra_dashes_ignored :
    (∀ (leak : Option Nat) (p0 p1 rest : List Char),
      (∀ c ∈ p0, c ≠ '-') → (∀ c ∈ p1, c ≠ '-') →
      (processToken leak (p0 ++ '-' :: (p1 ++ '-' :: rest))).1 =
        (processToken leak (p0 ++ '-' :: p1)).1) ∧
    parseText "1-2-3" = [(1, 2)] := by
  constructor
  · intro leak p0 p1 rest h0 h1
    rw [processToken_fst, processToken_fst]
    unfold pureToken
    have hL : (p0 ++ '-' :: (p1 ++ '-' :: rest)).splitOn '-' =
        p0 :: p1 :: rest.splitOn '-' := by
      rw [splitOn_first h0, splitOn_first h1]
    have hR : (p0 ++ '-' :: p1).splitOn '-' = [p0, p1] := by
      rw [splitOn_first h0, splitOn_single h1]
    rw [hL, hR]
    cases hr : rest.splitOn '-' with
    | nil => exact absurd hr (splitOn_ne_nil '-' rest)
    | cons q qs =>
      simp only [List.map_cons]
      rw [rangeOfParts_extra]
      rfl
  · decide

/-- Witness for C10 at the token "1-2-3". -/
theorem token_extra_dashes_ignored_witness :
    ((∀ c ∈ "1".data, c ≠ '-') ∧ (∀ c ∈ "2".data, c ≠ '-')) ∧
    (processToken none ("1".data ++ '-' :: ("2".data ++ '-' :: "3".data))).1 =
      (processToken none ("1".data ++ '-' :: "2".data)).1 :=
  ⟨⟨by decide, by decide⟩,
   token_extra_dashes_ignored.1 none "1".data "2".data "3".data (by decide) (by decide)⟩

example : parseText "5,3,8-10,9" = [(3, 3), (5, 5), (8, 10)] := by decide
example : parseText "1-3,4-6" = [(1, 6)] := by decide
example : parseText "1-3,5-6" = [(1, 3), (5, 6)] := by decide
example : parseText "10-2" = [(2, 10)] := by decide
example : parseText "3,,abc,7-" = [(3, 3)] := by decide
example : parseText "1-2-3" = [(1, 2)] := by decide
example : parseText "-5" = [] := by decide
example : formatRanges [(3, 3), (5, 5), (8, 10)] = "3,5,8-10".data := by decide

end MeshGen
